import Mathlib

/-!
# Verification of the `scm_repr` tagged-value encodings

This file shallowly embeds the value encodings of the `scm_repr` repository
and proves the spec's testable properties against them.

The production encoding (`src/main.rs`, identical to
`benches/cheaper_pairs.rs`) packs a runtime value into one machine word
(`usize`, 64-bit target): the low `N_TAG_BITS = 2` bits are the tag
(`0b00` pointer, `0b01` integer, `0b10` pair, `0b11` special), integers are
stored shifted left by two, the empty list is the fixed word `0b0011`, and a
pair is the address of a fresh two-slot record plus `TAG_PAIR`.

Heap allocation (`Box::leak`) is modelled by an arena: `PairHeap` is the list
of two-slot records in allocation order, and the record at index `k` lives at
the machine address `4 * (k + 1)` — a fresh, nonzero, `2^N_TAG_BITS`-aligned
address, which is exactly the alignment invariant the source asserts
(`debug_assert!(addr & TAG_MASK == 0)`).  Machine-integer arithmetic is
modelled on `Nat`/`Int` with explicit reductions modulo `2^64` where the
source wraps.

The untagged boxed baseline of `benches/simple.rs` is embedded in the
`Simple` namespace; values there are immutable trees, which quotients the
`&'static ScmValue` references by the only observations the source performs
(pattern matches).
-/

/-- `const N_TAG_BITS: usize = 2` from `src/main.rs`. -/
def N_TAG_BITS : Nat := 2

/-- `const TAG_MASK: usize = 0b_11`. -/
def TAG_MASK : Nat := 0b11

/-- `const TAG_POINTER: usize = 0b_00`. -/
def TAG_POINTER : Nat := 0b00

/-- `const TAG_INTEGER: usize = 0b_01`. -/
def TAG_INTEGER : Nat := 0b01

/-- `const TAG_PAIR: usize = 0b_10`. -/
def TAG_PAIR : Nat := 0b10

/-- `const TAG_SPECIAL: usize = 0b_11`. -/
def TAG_SPECIAL : Nat := 0b11

/-- `const SPECIAL_NIL: usize = 0b_0011`. -/
def SPECIAL_NIL : Nat := 0b0011

/-- `const MASK_IMMEDIATE: usize = 0b01`. -/
def MASK_IMMEDIATE : Nat := 0b01

/-- The modulus of the native machine word (`usize` on the 64-bit target). -/
def wordMod : Nat := 2 ^ 64

/-- Reinterpretation of an `i64` as a `usize` (the source's `value as usize`):
the two's-complement bit pattern, i.e. the representative modulo `2^64`. -/
def usizeOfI64 (i : Int) : Nat := (i % (2 ^ 64 : Int)).toNat

/-- Reinterpretation of a `usize` bit pattern (already reduced modulo `2^64`)
as an `i64` (the source's `... as i64`). -/
def i64OfUsize (u : Nat) : Int := if u < 2 ^ 63 then (u : Int) else (u : Int) - 2 ^ 64

/-- `pub struct Scm { value: usize }` — the tagged machine word. -/
structure Scm where
  value : Nat
deriving DecidableEq

/-- The arena of two-slot pair records created by `cons` (`Box::leak` in the
source), in allocation order.  The record at index `k` is at machine address
`recordAddr k = 4 * (k + 1)`. -/
abbrev PairHeap := List (Scm × Scm)

/-- Machine address of the `idx`-th record of an arena: fresh, nonzero and
aligned to `2^N_TAG_BITS`, as the source's allocator guarantees. -/
def recordAddr (idx : Nat) : Nat := 4 * (idx + 1)

/-- Dereference a pair-record address in the arena. -/
def lookupPair (h : PairHeap) (addr : Nat) : Option (Scm × Scm) :=
  if addr % 4 = 0 ∧ 4 ≤ addr then h[addr / 4 - 1]? else none

/-- `Scm::nil`: the fixed empty-list sentinel word `SPECIAL_NIL`. -/
def Scm.nil : Scm := ⟨SPECIAL_NIL⟩

/-- `Scm::from_int`: `(value as usize) << N_TAG_BITS | TAG_INTEGER`.  The
left shift wraps modulo `2^64` as the source's `usize` shift does. -/
def Scm.from_int (value : Int) : Scm :=
  ⟨((usizeOfI64 value <<< N_TAG_BITS) % wordMod) ||| TAG_INTEGER⟩

/-- `Scm::is_immediate`: `self.value & MASK_IMMEDIATE != 0`. -/
def Scm.is_immediate (s : Scm) : Bool := s.value &&& MASK_IMMEDIATE != 0

/-- `Scm::is_nil`: `self.value == SPECIAL_NIL`. -/
def Scm.is_nil (s : Scm) : Bool := s.value == SPECIAL_NIL

/-- `Scm::as_integer`: if the tag is `TAG_INTEGER`, the word shifted right by
`N_TAG_BITS` (a logical shift on `usize`) reinterpreted as `i64`. -/
def Scm.as_integer (s : Scm) : Option Int :=
  if s.value &&& TAG_MASK = TAG_INTEGER then some (i64OfUsize (s.value >>> N_TAG_BITS))
  else none

/-- `Scm::as_pair`: if the tag is `TAG_PAIR`, dereference `self.value - TAG_PAIR`. -/
def Scm.as_pair (s : Scm) (h : PairHeap) : Option (Scm × Scm) :=
  if s.value &&& TAG_MASK = TAG_PAIR then lookupPair h (s.value - TAG_PAIR)
  else none

/-- `enum ScmValue { Vector(&'static [Scm]) }` — the generic heap-object
payload of the 2-tag-bit variant. -/
inductive ScmValue where
  | Vector : List Scm → ScmValue

/-- The arena of generic heap objects created by `Scm::new`. -/
abbrev ObjHeap := List ScmValue

/-- `Scm::new`: allocate a generic heap object; the word is the record's bare
(tag-aligned) address, i.e. it carries `TAG_POINTER`. -/
def Scm.new (v : ScmValue) (oh : ObjHeap) : Scm × ObjHeap :=
  (⟨recordAddr oh.length⟩, oh ++ [v])

/-- Dereference a generic heap-object address in the object arena. -/
def lookupObj (oh : ObjHeap) (addr : Nat) : Option ScmValue :=
  if addr % 4 = 0 ∧ 4 ≤ addr then oh[addr / 4 - 1]? else none

/-- `Scm::as_ref`: if the tag is `TAG_POINTER`, dereference the word itself. -/
def Scm.as_ref (s : Scm) (oh : ObjHeap) : Option ScmValue :=
  if s.value &&& TAG_MASK = TAG_POINTER then lookupObj oh s.value
  else none

/-- The tag test performed by `Scm::as_ref` — the generic-heap predicate of
the 2-tag-bit encoding. -/
def has_pointer_tag (s : Scm) : Bool := s.value &&& TAG_MASK == TAG_POINTER

/-- `pub fn cons`: allocate a fresh two-slot record holding `(car, cdr)` and
return its (aligned) address plus `TAG_PAIR`. -/
def cons (car cdr : Scm) (h : PairHeap) : Scm × PairHeap :=
  (⟨recordAddr h.length + TAG_PAIR⟩, h ++ [(car, cdr)])

/-- `pub fn car`: `scm.as_pair().map(|p| p.0)`. -/
def car (scm : Scm) (h : PairHeap) : Option Scm := (scm.as_pair h).map Prod.fst

/-- `pub fn cdr`: `scm.as_pair().map(|p| p.1)`. -/
def cdr (scm : Scm) (h : PairHeap) : Option Scm := (scm.as_pair h).map Prod.snd

/-- `pub fn is_pair`: `scm.as_pair().is_some()`. -/
def is_pair (scm : Scm) (h : PairHeap) : Bool := (scm.as_pair h).isSome

/-- `pub fn is_integer`: `scm.as_integer().is_some()`. -/
def is_integer (scm : Scm) : Bool := scm.as_integer.isSome

/-- `pub fn is_null`: `scm.is_nil()`. -/
def is_null (scm : Scm) : Bool := scm.is_nil

/-- The body of `make_list`'s loop: `for i in (0..len).rev() { list = cons(Scm::from_int(i as i64), list) }`. -/
def make_list_loop : Nat → Scm → PairHeap → Scm × PairHeap
  | 0, list, h => (list, h)
  | i + 1, list, h =>
    let ph := cons (Scm.from_int i) list h
    make_list_loop i ph.1 ph.2

/-- `fn make_list(len)`: build the list `(0 1 ... len-1)` by repeated `cons`
starting from `Scm::nil()`, consing the largest element first. -/
def make_list (len : Nat) (h : PairHeap) : Scm × PairHeap :=
  make_list_loop len Scm.nil h

/-- `fn reverse(list)`: `if is_null(list) { nil } else { cons(reverse(cdr(list)), car(list)) }`.
The recursion is not structural (it follows heap pointers), so it takes
explicit fuel; `none` models both fuel exhaustion and the source's
`.expect("pair")` panic. -/
def reverse (fuel : Nat) (list : Scm) (h : PairHeap) : Option (Scm × PairHeap) :=
  match fuel with
  | 0 => none
  | fuel + 1 =>
    if is_null list then some (Scm.nil, h)
    else
      match cdr list h with
      | none => none
      | some d =>
        match reverse fuel d h with
        | none => none
        | some rh =>
          match car list rh.2 with
          | none => none
          | some a => some (cons rh.1 a rh.2)

/-- `fn fibonacci(n: Scm) -> Scm` from `src/main.rs`, computed entirely
through `from_int`/`as_integer` round-trips.  Explicit fuel models the
non-structural recursion; `none` models fuel exhaustion or an
`.expect("int")`/`.unwrap()` panic. -/
def fibonacci (fuel : Nat) (n : Scm) : Option Scm :=
  match fuel with
  | 0 => none
  | fuel + 1 =>
    match n.as_integer with
    | none => none
    | some i =>
      if i < 2 then some (Scm.from_int 1)
      else
        match fibonacci fuel (Scm.from_int (i - 1)) with
        | none => none
        | some fa =>
          match fa.as_integer with
          | none => none
          | some a =>
            match fibonacci fuel (Scm.from_int (i - 2)) with
            | none => none
            | some fb =>
              match fb.as_integer with
              | none => none
              | some b => some (Scm.from_int (a + b))

/-- The closed-form sequence `1, 1, 2, 3, 5, 8, ...` named by the spec
(§8, scenario 5). -/
def fibSeq : Nat → Nat
  | 0 => 1
  | 1 => 1
  | n + 2 => fibSeq (n + 1) + fibSeq n

/-- Reading the elements of a proper list back by car/cdr traversal (the
spec's "elements read back by car/cdr traversal", §8 scenario 3): stop at the
empty-list sentinel, otherwise take the integer in the car slot and continue
through the cdr slot.  `none` when the value is not a proper list of
integers (or fuel runs out). -/
def read_elements (fuel : Nat) (v : Scm) (h : PairHeap) : Option (List Int) :=
  match fuel with
  | 0 => none
  | fuel + 1 =>
    if is_null v then some []
    else
      match v.as_pair h with
      | none => none
      | some ad =>
        match ad.1.as_integer with
        | none => none
        | some i => (read_elements fuel ad.2 h).map (fun t => i :: t)

namespace Simple

/-- `enum ScmValue { Nil, Integer(i64), Pair(Scm, Scm) }` from
`benches/simple.rs`.  The `&'static ScmValue` references of the source are
modelled by the (immutable) trees themselves. -/
inductive ScmValue where
  | Nil : ScmValue
  | Integer : Int → ScmValue
  | Pair : ScmValue → ScmValue → ScmValue
deriving DecidableEq

/-- `fn make_int(i: i64)`: box an integer. -/
def make_int (i : Int) : ScmValue := ScmValue.Integer i

/-- `pub fn cons` of the boxed baseline. -/
def cons (car cdr : ScmValue) : ScmValue := ScmValue.Pair car cdr

/-- `pub fn car` of the boxed baseline. -/
def car : ScmValue → Option ScmValue
  | ScmValue.Pair a _ => some a
  | _ => none

/-- `pub fn cdr` of the boxed baseline. -/
def cdr : ScmValue → Option ScmValue
  | ScmValue.Pair _ d => some d
  | _ => none

/-- `pub fn is_pair` of the boxed baseline. -/
def is_pair : ScmValue → Bool
  | ScmValue.Pair _ _ => true
  | _ => false

/-- `pub fn as_integer` of the boxed baseline. -/
def as_integer : ScmValue → Option Int
  | ScmValue.Integer i => some i
  | _ => none

/-- `pub fn is_integer` of the boxed baseline. -/
def is_integer : ScmValue → Bool
  | ScmValue.Integer _ => true
  | _ => false

/-- `pub fn is_null` of the boxed baseline. -/
def is_null : ScmValue → Bool
  | ScmValue.Nil => true
  | _ => false

end Simple

/-- A program over the common construction/inspection interface shared by the
encoding variants: integer literals, the empty list, `cons`, `car`, `cdr`. -/
inductive ScmExpr where
  | int : Int → ScmExpr
  | nil : ScmExpr
  | cons : ScmExpr → ScmExpr → ScmExpr
  | car : ScmExpr → ScmExpr
  | cdr : ScmExpr → ScmExpr

/-- Run a program in the boxed baseline of `benches/simple.rs`.  `none`
models a `car`/`cdr` type mismatch surfacing. -/
def evalSimple : ScmExpr → Option Simple.ScmValue
  | .int i => some (Simple.make_int i)
  | .nil => some Simple.ScmValue.Nil
  | .cons a d =>
    match evalSimple a, evalSimple d with
    | some x, some y => some (Simple.cons x y)
    | _, _ => none
  | .car e => (evalSimple e).bind Simple.car
  | .cdr e => (evalSimple e).bind Simple.cdr

/-- `cons` lifted to the optional results of evaluating its two arguments:
allocates only when both arguments evaluated successfully. -/
def consO : Option Scm → Option Scm → PairHeap → Option Scm × PairHeap
  | some x, some y, h => (some (cons x y h).1, (cons x y h).2)
  | _, _, h => (none, h)

/-- Run a program in the 2-tag-bit encoding of `src/main.rs`, threading the
pair arena (arguments evaluate left to right as in the source). -/
def evalTagged : ScmExpr → PairHeap → Option Scm × PairHeap
  | .int i, h => (some (Scm.from_int i), h)
  | .nil, h => (some Scm.nil, h)
  | .cons a d, h =>
    consO (evalTagged a h).1 (evalTagged d (evalTagged a h).2).1
      (evalTagged d (evalTagged a h).2).2
  | .car e, h =>
    ((evalTagged e h).1.bind (fun v => car v (evalTagged e h).2), (evalTagged e h).2)
  | .cdr e, h =>
    ((evalTagged e h).1.bind (fun v => cdr v (evalTagged e h).2), (evalTagged e h).2)

/-- All integer literals of a program lie in `[0, 2^62)` — the range on which
the tagged encoding's encode/decode is the identity. -/
def litsOK : ScmExpr → Bool
  | .int i => decide (0 ≤ i ∧ i < 2 ^ 62)
  | .nil => true
  | .cons a d => litsOK a && litsOK d
  | .car e => litsOK e
  | .cdr e => litsOK e

/-- Correspondence between a tagged word (under a pair arena) and a boxed
baseline value: equal integer observations, the sentinel for `Nil`, and
component-wise correspondence through the arena for pairs. -/
def Corr (h : PairHeap) : Scm → Simple.ScmValue → Prop
  | v, .Nil => v = Scm.nil
  | v, .Integer i => v.as_integer = some i
  | v, .Pair a d => ∃ x y, v.as_pair h = some (x, y) ∧ Corr h x a ∧ Corr h y d

/-- `Corr` lifted to the optional results of running a program: both sides
fail together or succeed to corresponding values. -/
def CorrO (h : PairHeap) : Option Scm → Option Simple.ScmValue → Prop
  | none, none => True
  | some v, some s => Corr h v s
  | _, _ => False

/-! ## Arithmetic bridges for the bit-level operations -/

/-- Setting the lowest bit of an even number adds one. -/
theorem lor_one_of_even (m : Nat) (hm : m % 2 = 0) : m ||| 1 = m + 1 := by
  apply Nat.eq_of_testBit_eq
  intro i
  rw [Nat.testBit_or]
  cases i with
  | zero =>
    simp [Nat.testBit_zero]
    omega
  | succ i =>
    rw [Nat.testBit_succ, Nat.testBit_succ, Nat.testBit_succ]
    have h2 : (m + 1) / 2 = m / 2 := by omega
    have h1 : (1 : Nat) / 2 = 0 := by omega
    rw [h2, h1]
    simp [Nat.zero_testBit]

/-- Masking with the two-bit tag mask is reduction modulo four. -/
theorem and_tag_mask (x : Nat) : x &&& TAG_MASK = x % 4 := by
  have h := Nat.and_pow_two_sub_one_eq_mod x 2
  norm_num at h
  simpa [TAG_MASK] using h

/-- The word built by `Scm::from_int` is `4 * (i mod 2^62) + 1`. -/
theorem from_int_value (i : Int) :
    (Scm.from_int i).value = 4 * (i % (2 ^ 62 : Int)).toNat + 1 := by
  show ((usizeOfI64 i <<< N_TAG_BITS) % wordMod) ||| TAG_INTEGER = _
  rw [Nat.shiftLeft_eq]
  have e64 : wordMod = 18446744073709551616 := by norm_num [wordMod]
  have hmod : (usizeOfI64 i * 2 ^ N_TAG_BITS) % wordMod
      = 4 * ((i % (2 ^ 62 : Int)).toNat) := by
    rw [e64]
    show (usizeOfI64 i * 2 ^ 2) % 18446744073709551616 = _
    unfold usizeOfI64
    have h1 : ((2 : Int) ^ 64) = 18446744073709551616 := by norm_num
    have h2 : ((2 : Int) ^ 62) = 4611686018427387904 := by norm_num
    rw [h1, h2]
    omega
  rw [hmod]
  exact lor_one_of_even _ (by omega)

/-- Decoding after encoding yields the low 62 bits, zero-extended: the
decode shift on `usize` is a logical shift, so the result is the
nonnegative representative of `i` modulo `2^62`. -/
theorem as_integer_from_int (i : Int) :
    (Scm.from_int i).as_integer = some (i % (2 ^ 62 : Int)) := by
  unfold Scm.as_integer
  rw [from_int_value i, and_tag_mask]
  have htag : (4 * (i % (2 ^ 62 : Int)).toNat + 1) % 4 = TAG_INTEGER := by
    show _ = 1
    omega
  rw [if_pos htag]
  have hsh : (4 * (i % (2 ^ 62 : Int)).toNat + 1) >>> N_TAG_BITS
      = (i % (2 ^ 62 : Int)).toNat := by
    rw [Nat.shiftRight_eq_div_pow]
    show _ / 2 ^ 2 = _
    omega
  rw [hsh]
  unfold i64OfUsize
  have hlt : (i % (2 ^ 62 : Int)).toNat < 2 ^ 63 := by
    have h2 : ((2 : Int) ^ 62) = 4611686018427387904 := by norm_num
    rw [h2] at *
    omega
  rw [if_pos hlt]
  have hnonneg : 0 ≤ i % (2 ^ 62 : Int) := Int.emod_nonneg i (by norm_num)
  congr 1
  omega

/-! ## Tag and heap lemmas -/

/-- The word built by `cons` on a heap of `n` records is `4 * n + 6`. -/
theorem cons_value (a b : Scm) (h : PairHeap) :
    (cons a b h).1.value = 4 * h.length + 6 := by
  show recordAddr h.length + TAG_PAIR = _
  unfold recordAddr TAG_PAIR
  omega

/-- `cons` appends exactly one record, head in the first slot, tail in the
second. -/
theorem cons_heap (a b : Scm) (h : PairHeap) : (cons a b h).2 = h ++ [(a, b)] := rfl

/-- `as_pair` refuses any word whose tag is not `TAG_PAIR`. -/
theorem as_pair_of_tag_ne (s : Scm) (h : PairHeap) (hs : s.value % 4 ≠ TAG_PAIR) :
    s.as_pair h = none := by
  unfold Scm.as_pair
  rw [and_tag_mask, if_neg hs]

/-- `as_integer` refuses any word whose tag is not `TAG_INTEGER`. -/
theorem as_integer_of_tag_ne (s : Scm) (hs : s.value % 4 ≠ TAG_INTEGER) :
    s.as_integer = none := by
  unfold Scm.as_integer
  rw [and_tag_mask, if_neg hs]

/-- A word that decodes as an integer carries the integer tag. -/
theorem as_integer_some_mod (s : Scm) (i : Int) (hs : s.as_integer = some i) :
    s.value % 4 = TAG_INTEGER := by
  unfold Scm.as_integer at hs
  rw [and_tag_mask] at hs
  by_contra hne
  rw [if_neg hne] at hs
  exact Option.noConfusion hs

/-- A word that dereferences as a pair carries the pair tag. -/
theorem as_pair_some_mod (s : Scm) (h : PairHeap) (p : Scm × Scm)
    (hs : s.as_pair h = some p) : s.value % 4 = TAG_PAIR := by
  unfold Scm.as_pair at hs
  rw [and_tag_mask] at hs
  by_contra hne
  rw [if_neg hne] at hs
  exact Option.noConfusion hs

/-- Destructuring the word `cons` just built gives back both slots. -/
theorem cons_as_pair (a b : Scm) (h : PairHeap) :
    (cons a b h).1.as_pair (cons a b h).2 = some (a, b) := by
  have hv : (cons a b h).1.value = 4 * h.length + 6 := cons_value a b h
  unfold Scm.as_pair lookupPair
  rw [hv, and_tag_mask, cons_heap]
  rw [if_pos (show (4 * h.length + 6) % 4 = TAG_PAIR by show _ = 2; omega)]
  have h1 : 4 * h.length + 6 - TAG_PAIR = 4 * (h.length + 1) := by
    show _ - 2 = _
    omega
  rw [h1]
  rw [if_pos ⟨by omega, by omega⟩]
  have h2 : 4 * (h.length + 1) / 4 - 1 = h.length := by omega
  rw [h2]
  exact List.getElem?_concat_length h (a, b)

/-- A successful arena lookup survives growing the arena. -/
theorem lookupPair_append (h l : PairHeap) (addr : Nat) (p : Scm × Scm)
    (hl : lookupPair h addr = some p) : lookupPair (h ++ l) addr = some p := by
  unfold lookupPair at hl ⊢
  by_cases hc : addr % 4 = 0 ∧ 4 ≤ addr
  · rw [if_pos hc] at hl ⊢
    have hlt : addr / 4 - 1 < h.length := by
      by_contra hge
      push_neg at hge
      rw [List.getElem?_eq_none (by omega)] at hl
      exact Option.noConfusion hl
    rw [List.getElem?_append_left hlt]
    exact hl
  · rw [if_neg hc] at hl
    exact Option.noConfusion hl

/-- A successful `as_pair` survives growing the arena. -/
theorem as_pair_append (v : Scm) (h l : PairHeap) (p : Scm × Scm)
    (hp : v.as_pair h = some p) : v.as_pair (h ++ l) = some p := by
  unfold Scm.as_pair at hp ⊢
  by_cases hc : v.value &&& TAG_MASK = TAG_PAIR
  · rw [if_pos hc] at hp ⊢
    exact lookupPair_append h l _ p hp
  · rw [if_neg hc] at hp
    exact Option.noConfusion hp

/-- The correspondence relation survives growing the arena. -/
theorem Corr_append (l : PairHeap) : ∀ (s : Simple.ScmValue) (h : PairHeap) (v : Scm),
    Corr h v s → Corr (h ++ l) v s := by
  intro s
  induction s with
  | Nil => intro h v hc; exact hc
  | Integer i => intro h v hc; exact hc
  | Pair a d iha ihd =>
    intro h v hc
    obtain ⟨x, y, hp, hx, hy⟩ := hc
    exact ⟨x, y, as_pair_append v h l _ hp, iha h x hx, ihd h y hy⟩

/-- The word built by `Scm::from_int` always carries the integer tag. -/
theorem from_int_mod (i : Int) : (Scm.from_int i).value % 4 = 1 := by
  rw [from_int_value]
  omega

/-! ## Claim theorems -/

/-- Claim C1, amended.  Decoding uses a logical (zero-fill) right shift on
`usize`, not an arithmetic one, so only the nonnegative half of the 62-bit
signed range round-trips; a negative in-range integer decodes to its
nonnegative two's-complement image `i + 2^62` instead of itself. -/
theorem integer_roundtrip :
    (∀ i : Int, 0 ≤ i → i < 2 ^ 61 → (Scm.from_int i).as_integer = some i) ∧
    (∀ i : Int, -(2 ^ 61) ≤ i → i < 0 →
      (Scm.from_int i).as_integer = some (i + 2 ^ 62)) := by
  have e61 : ((2 : Int) ^ 61) = 2305843009213693952 := by norm_num
  have e62 : ((2 : Int) ^ 62) = 4611686018427387904 := by norm_num
  constructor
  · intro i h0 h1
    rw [as_integer_from_int, e62]
    rw [e61] at h1
    congr 1
    omega
  · intro i h0 h1
    rw [as_integer_from_int, e62]
    rw [e61] at h0
    congr 1
    omega

/-- Witness for C1 at the concrete inputs `5` and `-1`. -/
theorem integer_roundtrip_witness :
    (Scm.from_int 5).as_integer = some 5 ∧
    (Scm.from_int (-1)).as_integer = some (-1 + 2 ^ 62) :=
  ⟨integer_roundtrip.1 5 (by norm_num) (by norm_num),
   integer_roundtrip.2 (-1) (by norm_num) (by norm_num)⟩

/-- Counterexample to C1 as stated: the in-range negative integer `-1` does
not decode back to itself (it decodes to `2^62 - 1`). -/
theorem integer_roundtrip_counterexample :
    (Scm.from_int (-1)).as_integer ≠ some (-1) := by decide

/-- Claim C2: `car`/`cdr` of a fresh `cons` give back exactly the two
arguments, and `cons` appended one fresh two-slot record with the head in
the first slot and the tail in the second. -/
theorem pair_roundtrip (a b : Scm) (h : PairHeap) :
    car (cons a b h).1 (cons a b h).2 = some a ∧
    cdr (cons a b h).1 (cons a b h).2 = some b ∧
    (cons a b h).2 = h ++ [(a, b)] := by
  refine ⟨?_, ?_, cons_heap a b h⟩
  · unfold car
    rw [cons_as_pair]
    rfl
  · unfold cdr
    rw [cons_as_pair]
    rfl

/-- Claim C3: each constructor's value satisfies exactly the classification
predicate matching the constructor — `from_int` is an integer and nothing
else, `nil` is null and nothing else, `cons` is a pair and nothing else
(the fourth class being the generic-heap pointer tag). -/
theorem tag_disjointness :
    (∀ (i : Int) (h : PairHeap),
      is_integer (Scm.from_int i) = true ∧
      is_pair (Scm.from_int i) h = false ∧
      is_null (Scm.from_int i) = false ∧
      has_pointer_tag (Scm.from_int i) = false) ∧
    (∀ h : PairHeap,
      is_null Scm.nil = true ∧
      is_integer Scm.nil = false ∧
      is_pair Scm.nil h = false ∧
      has_pointer_tag Scm.nil = false) ∧
    (∀ (a b : Scm) (h : PairHeap),
      is_pair (cons a b h).1 (cons a b h).2 = true ∧
      is_integer (cons a b h).1 = false ∧
      is_null (cons a b h).1 = false ∧
      has_pointer_tag (cons a b h).1 = false) := by
  refine ⟨?_, ?_, ?_⟩
  · intro i h
    have hm : (Scm.from_int i).value % 4 = 1 := from_int_mod i
    refine ⟨?_, ?_, ?_, ?_⟩
    · unfold is_integer
      rw [as_integer_from_int]
      rfl
    · unfold is_pair
      rw [as_pair_of_tag_ne _ _ (by show _ % 4 ≠ 2; omega)]
      rfl
    · show ((Scm.from_int i).value == SPECIAL_NIL) = false
      simp only [beq_eq_false_iff_ne]
      show (Scm.from_int i).value ≠ 3
      omega
    · unfold has_pointer_tag
      rw [and_tag_mask]
      simp only [beq_eq_false_iff_ne]
      show _ % 4 ≠ 0
      omega
  · intro h
    refine ⟨rfl, ?_, ?_, ?_⟩
    · rw [show is_integer Scm.nil = (Scm.nil.as_integer).isSome from rfl,
        as_integer_of_tag_ne _ (by decide)]
      rfl
    · unfold is_pair
      rw [as_pair_of_tag_ne _ _ (by decide)]
      rfl
    · decide
  · intro a b h
    have hm : (cons a b h).1.value % 4 = 2 := by
      rw [cons_value]
      omega
    refine ⟨?_, ?_, ?_, ?_⟩
    · unfold is_pair
      rw [cons_as_pair]
      rfl
    · unfold is_integer
      rw [as_integer_of_tag_ne _ (by show _ % 4 ≠ 1; omega)]
      rfl
    · show ((cons a b h).1.value == SPECIAL_NIL) = false
      simp only [beq_eq_false_iff_ne]
      show (cons a b h).1.value ≠ 3
      omega
    · unfold has_pointer_tag
      rw [and_tag_mask]
      simp only [beq_eq_false_iff_ne]
      show _ % 4 ≠ 0
      omega

/-- Claim C6, amended.  For every `i64` input — in particular every
out-of-range one — `from_int` silently truncates to the low 62 bits and
`as_integer` returns `some` of that truncation instead of failing; but the
truncation is zero-fill (logical right shift), not sign-extending, so the
result is the nonnegative representative `i mod 2^62`. -/
theorem silent_truncation (i : Int) (_hlo : -(2 ^ 63) ≤ i) (_hhi : i < 2 ^ 63)
    (_hout : ¬(-(2 ^ 61) ≤ i ∧ i < 2 ^ 61)) :
    (Scm.from_int i).as_integer = some (i % (2 ^ 62 : Int)) :=
  as_integer_from_int i

/-- Witness for C6 at the concrete out-of-range input `2^62 + 5`. -/
theorem silent_truncation_witness :
    (Scm.from_int (2 ^ 62 + 5)).as_integer = some 5 :=
  (silent_truncation (2 ^ 62 + 5) (by norm_num) (by norm_num)
    (by norm_num)).trans (by decide)

/-- Counterexample to C6 as stated: truncating `2^61` with sign extension
would give `-(2^61)`, but the code decodes `from_int(2^61)` to `+2^61`
(zero-fill shift). -/
theorem silent_truncation_counterexample :
    (Scm.from_int (2 ^ 61)).as_integer = some (2 ^ 61) ∧
    (Scm.from_int (2 ^ 61)).as_integer ≠ some (-(2 ^ 61)) := by decide

/-- Claim C7: every inspection operation is total and returns `none` on a
tag mismatch — in particular `car`/`cdr` on integers and on nil, and
`as_integer` on pairs and on nil. -/
theorem type_mismatch_no_value :
    (∀ v : Scm, v.value % 4 ≠ TAG_INTEGER → v.as_integer = none) ∧
    (∀ (v : Scm) (h : PairHeap), v.value % 4 ≠ TAG_PAIR →
      car v h = none ∧ cdr v h = none) ∧
    (∀ (i : Int) (h : PairHeap),
      car (Scm.from_int i) h = none ∧ cdr (Scm.from_int i) h = none) ∧
    (∀ h : PairHeap, car Scm.nil h = none ∧ cdr Scm.nil h = none) ∧
    Scm.nil.as_integer = none ∧
    (∀ (a b : Scm) (h : PairHeap), (cons a b h).1.as_integer = none) := by
  have hcar : ∀ (v : Scm) (h : PairHeap), v.value % 4 ≠ TAG_PAIR →
      car v h = none ∧ cdr v h = none := by
    intro v h hv
    unfold car cdr
    rw [as_pair_of_tag_ne _ _ hv]
    exact ⟨rfl, rfl⟩
  refine ⟨fun v hv => as_integer_of_tag_ne v hv, hcar, ?_, ?_, ?_, ?_⟩
  · intro i h
    exact hcar _ h (by have := from_int_mod i; show _ % 4 ≠ 2; omega)
  · intro h
    exact hcar _ h (by decide)
  · exact as_integer_of_tag_ne _ (by decide)
  · intro a b h
    refine as_integer_of_tag_ne _ ?_
    rw [cons_value]
    show _ % 4 ≠ 1
    omega

/-- Witness for C7 at the concrete words `3` (nil, tag `0b11`) and `5`
(the integer 1, tag `0b01`). -/
theorem type_mismatch_no_value_witness :
    Scm.as_integer (Scm.mk 3) = none ∧ car (Scm.mk 5) [] = none :=
  ⟨type_mismatch_no_value.1 (Scm.mk 3) (by decide),
   (type_mismatch_no_value.2.1 (Scm.mk 5) [] (by decide)).1⟩

/-- Claim C8: the recursive Fibonacci computed through
`from_int`/`as_integer` round-trips returns the closed-form sequence
`1, 1, 2, 3, 5, 8, ...` at every index from 0 to 10. -/
theorem fibonacci_sequence :
    ∀ n : Fin 11, fibonacci 11 (Scm.from_int (n : Nat)) =
      some (Scm.from_int (fibSeq n)) := by decide

/-- Claim C9: `nil()` is the fixed sentinel word `SPECIAL_NIL` (no
allocation: it is heap-independent by construction), `is_null(nil())` holds,
and the integer zero is not the empty list. -/
theorem nil_sentinel :
    is_null Scm.nil = true ∧
    Scm.nil.value = SPECIAL_NIL ∧
    is_null (Scm.from_int 0) = false := by decide

/-- Claim C10: every `from_int`/`nil` word has least-significant bit 1 and
is classified immediate; every `cons`/`Scm::new` word has least-significant
bit 0 (the model's allocator is tag-aligned) and is not classified
immediate. -/
theorem immediate_bit :
    (∀ i : Int,
      (Scm.from_int i).value % 2 = 1 ∧ (Scm.from_int i).is_immediate = true) ∧
    (Scm.nil.value % 2 = 1 ∧ Scm.nil.is_immediate = true) ∧
    (∀ (a b : Scm) (h : PairHeap),
      (cons a b h).1.value % 2 = 0 ∧ (cons a b h).1.is_immediate = false) ∧
    (∀ (v : ScmValue) (oh : ObjHeap),
      (Scm.new v oh).1.value % 2 = 0 ∧ (Scm.new v oh).1.is_immediate = false) := by
  have hop : ∀ s : Scm, s.value % 2 ≠ 0 → s.is_immediate = true := by
    intro s hs
    show ((s.value &&& 1) != 0) = true
    rw [Nat.and_one_is_mod]
    simpa [bne_iff_ne] using hs
  have hcl : ∀ s : Scm, s.value % 2 = 0 → s.is_immediate = false := by
    intro s hs
    show ((s.value &&& 1) != 0) = false
    rw [Nat.and_one_is_mod]
    simpa [bne_eq_false_iff_eq] using hs
  refine ⟨?_, ⟨rfl, rfl⟩, ?_, ?_⟩
  · intro i
    have hm := from_int_mod i
    have h2 : (Scm.from_int i).value % 2 = 1 := by omega
    exact ⟨h2, hop _ (by omega)⟩
  · intro a b h
    have h2 : (cons a b h).1.value % 2 = 0 := by
      rw [cons_value]
      omega
    exact ⟨h2, hcl _ h2⟩
  · intro v oh
    have h2 : (Scm.new v oh).1.value % 2 = 0 := by
      show recordAddr oh.length % 2 = 0
      unfold recordAddr
      omega
    exact ⟨h2, hcl _ h2⟩

/-- Claim C5 evaluated at the failing input `reverse(make_list(3))`, the
three-element list `(0 1 2)`.  The original list reads back as `[0, 1, 2]`
by car/cdr traversal, and `reverse` succeeds — but its result is not a
proper list at all: a car/cdr readback of the result fails (`none`), its
`cdr` slot holds the *element* `0`, and its `car` slot holds a *pair*.
The source's `reverse` swaps the roles of the two `cons` arguments
(`cons(reverse(cdr l), car l)`), producing a mirrored structure instead of
a reversed list. -/
theorem reverse_mirrored_structure :
    read_elements 10 (make_list 3 []).1 (make_list 3 []).2 = some [0, 1, 2] ∧
    (reverse 10 (make_list 3 []).1 (make_list 3 []).2).isSome = true ∧
    ((reverse 10 (make_list 3 []).1 (make_list 3 []).2).bind
      (fun p => read_elements 10 p.1 p.2)) = none ∧
    ((reverse 10 (make_list 3 []).1 (make_list 3 []).2).bind
      (fun p => cdr p.1 p.2)) = some (Scm.from_int 0) ∧
    ((reverse 10 (make_list 3 []).1 (make_list 3 []).2).bind
      (fun p => (car p.1 p.2).map (fun c => is_pair c p.2))) = some true := by
  decide

/-! ## Variant equivalence (claim C4) -/

/-- `car` of corresponding values yields corresponding (optional) results. -/
theorem Corr_car (h : PairHeap) (v : Scm) (s : Simple.ScmValue)
    (hc : Corr h v s) : CorrO h (car v h) (Simple.car s) := by
  cases s with
  | Nil =>
    have hv : v = Scm.nil := hc
    subst hv
    have : car Scm.nil h = none := by
      unfold car
      rw [as_pair_of_tag_ne _ _ (by decide)]
      rfl
    rw [this]
    trivial
  | Integer i =>
    have hi : v.as_integer = some i := hc
    have hm : v.value % 4 = 1 := as_integer_some_mod v i hi
    have : car v h = none := by
      unfold car
      rw [as_pair_of_tag_ne _ _ (by show _ % 4 ≠ 2; omega)]
      rfl
    rw [this]
    trivial
  | Pair a d =>
    obtain ⟨x, y, hp, hx, hy⟩ := hc
    have : car v h = some x := by
      unfold car
      rw [hp]
      rfl
    rw [this]
    exact hx

/-- `cdr` of corresponding values yields corresponding (optional) results. -/
theorem Corr_cdr (h : PairHeap) (v : Scm) (s : Simple.ScmValue)
    (hc : Corr h v s) : CorrO h (cdr v h) (Simple.cdr s) := by
  cases s with
  | Nil =>
    have hv : v = Scm.nil := hc
    subst hv
    have : cdr Scm.nil h = none := by
      unfold cdr
      rw [as_pair_of_tag_ne _ _ (by decide)]
      rfl
    rw [this]
    trivial
  | Integer i =>
    have hi : v.as_integer = some i := hc
    have hm : v.value % 4 = 1 := as_integer_some_mod v i hi
    have : cdr v h = none := by
      unfold cdr
      rw [as_pair_of_tag_ne _ _ (by show _ % 4 ≠ 2; omega)]
      rfl
    rw [this]
    trivial
  | Pair a d =>
    obtain ⟨x, y, hp, hx, hy⟩ := hc
    have : cdr v h = some y := by
      unfold cdr
      rw [hp]
      rfl
    rw [this]
    exact hy

/-- Corresponding values agree on all four classification/decoding
observations. -/
theorem Corr_obs (h : PairHeap) (v : Scm) (s : Simple.ScmValue)
    (hc : Corr h v s) :
    v.as_integer = Simple.as_integer s ∧
    is_pair v h = Simple.is_pair s ∧
    is_null v = Simple.is_null s ∧
    is_integer v = Simple.is_integer s := by
  cases s with
  | Nil =>
    have hv : v = Scm.nil := hc
    subst hv
    refine ⟨by decide, ?_, by decide, by decide⟩
    unfold is_pair
    rw [as_pair_of_tag_ne _ _ (by decide)]
    rfl
  | Integer i =>
    have hi : v.as_integer = some i := hc
    have hm : v.value % 4 = 1 := as_integer_some_mod v i hi
    refine ⟨by rw [hi]; rfl, ?_, ?_, ?_⟩
    · unfold is_pair
      rw [as_pair_of_tag_ne _ _ (by show _ % 4 ≠ 2; omega)]
      rfl
    · show (v.value == SPECIAL_NIL) = false
      simp only [beq_eq_false_iff_ne]
      show v.value ≠ 3
      omega
    · unfold is_integer
      rw [hi]
      rfl
  | Pair a d =>
    obtain ⟨x, y, hp, _, _⟩ := hc
    have hm : v.value % 4 = 2 := as_pair_some_mod v h _ hp
    refine ⟨?_, ?_, ?_, ?_⟩
    · rw [as_integer_of_tag_ne v (by show _ % 4 ≠ 1; omega)]
      rfl
    · unfold is_pair
      rw [hp]
      rfl
    · show (v.value == SPECIAL_NIL) = false
      simp only [beq_eq_false_iff_ne]
      show v.value ≠ 3
      omega
    · unfold is_integer
      rw [as_integer_of_tag_ne v (by show _ % 4 ≠ 1; omega)]
      rfl

/-- Corresponding optional results agree on success and on every
observation. -/
theorem CorrO_obs (h : PairHeap) (ov : Option Scm) (os : Option Simple.ScmValue)
    (hc : CorrO h ov os) :
    ov.isSome = os.isSome ∧
    ov.bind Scm.as_integer = os.bind Simple.as_integer ∧
    ov.map (fun v => is_pair v h) = os.map Simple.is_pair ∧
    ov.map is_null = os.map Simple.is_null ∧
    ov.map is_integer = os.map Simple.is_integer := by
  cases ov with
  | none =>
    cases os with
    | none => exact ⟨rfl, rfl, rfl, rfl, rfl⟩
    | some s => exact (hc : False).elim
  | some v =>
    cases os with
    | none => exact (hc : False).elim
    | some s =>
      obtain ⟨h1, h2, h3, h4⟩ := Corr_obs h v s hc
      refine ⟨rfl, ?_, ?_, ?_, ?_⟩
      · show Scm.as_integer v = Simple.as_integer s
        exact h1
      · show some (is_pair v h) = some (Simple.is_pair s)
        rw [h2]
      · show some (is_null v) = some (Simple.is_null s)
        rw [h3]
      · show some (is_integer v) = some (Simple.is_integer s)
        rw [h4]

/-- Running a program only ever appends records to the arena. -/
theorem evalTagged_heap : ∀ (e : ScmExpr) (h : PairHeap),
    ∃ l, (evalTagged e h).2 = h ++ l := by
  intro e
  induction e with
  | int i => intro h; exact ⟨[], by simp [evalTagged]⟩
  | nil => intro h; exact ⟨[], by simp [evalTagged]⟩
  | cons a d iha ihd =>
    intro h
    obtain ⟨l1, h1⟩ := iha h
    obtain ⟨l2, h2⟩ := ihd (evalTagged a h).2
    cases hoa : (evalTagged a h).1 with
    | none =>
      cases hod : (evalTagged d (evalTagged a h).2).1 with
      | none =>
        refine ⟨l1 ++ l2, ?_⟩
        simp only [evalTagged, hoa, hod, consO]
        rw [h2, h1, List.append_assoc]
      | some y =>
        refine ⟨l1 ++ l2, ?_⟩
        simp only [evalTagged, hoa, hod, consO]
        rw [h2, h1, List.append_assoc]
    | some x =>
      cases hod : (evalTagged d (evalTagged a h).2).1 with
      | none =>
        refine ⟨l1 ++ l2, ?_⟩
        simp only [evalTagged, hoa, hod, consO]
        rw [h2, h1, List.append_assoc]
      | some y =>
        refine ⟨l1 ++ (l2 ++ [(x, y)]), ?_⟩
        simp only [evalTagged, hoa, hod, consO, cons_heap]
        rw [h2, h1]
        simp [List.append_assoc]
  | car e ih =>
    intro h
    obtain ⟨l, hl⟩ := ih h
    exact ⟨l, by simp only [evalTagged]; exact hl⟩
  | cdr e ih =>
    intro h
    obtain ⟨l, hl⟩ := ih h
    exact ⟨l, by simp only [evalTagged]; exact hl⟩

/-- Main refinement lemma: on programs whose integer literals lie in
`[0, 2^62)`, the tagged encoding and the boxed baseline produce
corresponding results. -/
theorem evalTagged_corr : ∀ (e : ScmExpr), litsOK e = true → ∀ (h : PairHeap),
    CorrO (evalTagged e h).2 (evalTagged e h).1 (evalSimple e) := by
  intro e
  induction e with
  | int i =>
    intro hok h
    have hrange : 0 ≤ i ∧ i < 2 ^ 62 := by
      simpa only [litsOK, decide_eq_true_eq] using hok
    show Corr h (Scm.from_int i) (Simple.ScmValue.Integer i)
    show (Scm.from_int i).as_integer = some i
    rw [as_integer_from_int]
    congr 1
    have e62 : ((2 : Int) ^ 62) = 4611686018427387904 := by norm_num
    rw [e62]
    rw [e62] at hrange
    omega
  | nil =>
    intro hok h
    show Scm.nil = Scm.nil
    rfl
  | cons a d iha ihd =>
    intro hok h
    have hok2 : litsOK a = true ∧ litsOK d = true := by
      simpa only [litsOK, Bool.and_eq_true] using hok
    have ha := iha hok2.1 h
    have hd := ihd hok2.2 (evalTagged a h).2
    obtain ⟨l2, hl2⟩ := evalTagged_heap d (evalTagged a h).2
    cases hoa : (evalTagged a h).1 with
    | none =>
      cases hsa : evalSimple a with
      | none =>
        cases hod : (evalTagged d (evalTagged a h).2).1 with
        | none =>
          simp only [evalTagged, evalSimple, hoa, hod, hsa, consO]
          trivial
        | some y =>
          simp only [evalTagged, evalSimple, hoa, hod, hsa, consO]
          trivial
      | some sa =>
        rw [hoa, hsa] at ha
        exact (ha : False).elim
    | some x =>
      cases hsa : evalSimple a with
      | none =>
        rw [hoa, hsa] at ha
        exact (ha : False).elim
      | some sa =>
        rw [hoa, hsa] at ha
        cases hod : (evalTagged d (evalTagged a h).2).1 with
        | none =>
          cases hsd : evalSimple d with
          | none =>
            simp only [evalTagged, evalSimple, hoa, hod, hsa, hsd, consO]
            trivial
          | some sd =>
            rw [hod, hsd] at hd
            exact (hd : False).elim
        | some y =>
          cases hsd : evalSimple d with
          | none =>
            rw [hod, hsd] at hd
            exact (hd : False).elim
          | some sd =>
            rw [hod, hsd] at hd
            simp only [evalTagged, evalSimple, hoa, hod, hsa, hsd, consO]
            show Corr (cons x y (evalTagged d (evalTagged a h).2).2).2
              (cons x y (evalTagged d (evalTagged a h).2).2).1
              (Simple.ScmValue.Pair sa sd)
            refine ⟨x, y, cons_as_pair x y _, ?_, ?_⟩
            · rw [cons_heap, hl2, List.append_assoc]
              exact Corr_append _ sa _ x ha
            · rw [cons_heap]
              exact Corr_append _ sd _ y hd
  | car e ih =>
    intro hok h
    have he := ih hok h
    cases hov : (evalTagged e h).1 with
    | none =>
      cases hse : evalSimple e with
      | none =>
        simp only [evalTagged, evalSimple, hov, hse]
        trivial
      | some s =>
        rw [hov, hse] at he
        exact (he : False).elim
    | some v =>
      cases hse : evalSimple e with
      | none =>
        rw [hov, hse] at he
        exact (he : False).elim
      | some s =>
        rw [hov, hse] at he
        simp only [evalTagged, evalSimple, hov, hse]
        show CorrO (evalTagged e h).2 (car v (evalTagged e h).2) (Simple.car s)
        exact Corr_car _ v s he
  | cdr e ih =>
    intro hok h
    have he := ih hok h
    cases hov : (evalTagged e h).1 with
    | none =>
      cases hse : evalSimple e with
      | none =>
        simp only [evalTagged, evalSimple, hov, hse]
        trivial
      | some s =>
        rw [hov, hse] at he
        exact (he : False).elim
    | some v =>
      cases hse : evalSimple e with
      | none =>
        rw [hov, hse] at he
        exact (he : False).elim
      | some s =>
        rw [hov, hse] at he
        simp only [evalTagged, evalSimple, hov, hse]
        show CorrO (evalTagged e h).2 (cdr v (evalTagged e h).2) (Simple.cdr s)
        exact Corr_cdr _ v s he

/-- Claim C4, amended.  For every program over the shared interface whose
integer literals are nonnegative and below `2^62`, the 2-tag-bit tagged
encoding and the untagged boxed baseline produce corresponding results:
they succeed or fail together, their results correspond hereditarily
(`CorrO`, which mirrors `car`/`cdr` structure through the arena), and all
observations — `as_integer`, `is_pair`, `is_null`, `is_integer` — agree.
Without the literal restriction the variants disagree: the tagged decode is
a logical shift, the baseline stores the `i64` exactly. -/
theorem variant_equivalence (e : ScmExpr) (h : PairHeap) (hok : litsOK e = true) :
    CorrO (evalTagged e h).2 (evalTagged e h).1 (evalSimple e) ∧
    (evalTagged e h).1.isSome = (evalSimple e).isSome ∧
    ((evalTagged e h).1.bind Scm.as_integer) =
      ((evalSimple e).bind Simple.as_integer) ∧
    ((evalTagged e h).1.map (fun v => is_pair v (evalTagged e h).2)) =
      ((evalSimple e).map Simple.is_pair) ∧
    ((evalTagged e h).1.map is_null) = ((evalSimple e).map Simple.is_null) ∧
    ((evalTagged e h).1.map is_integer) =
      ((evalSimple e).map Simple.is_integer) := by
  have hc := evalTagged_corr e hok h
  obtain ⟨h1, h2, h3, h4, h5⟩ := CorrO_obs (evalTagged e h).2 (evalTagged e h).1
    (evalSimple e) hc
  exact ⟨hc, h1, h2, h3, h4, h5⟩

/-- Witness for C4: the program `cons(int 1, nil)` evaluated from the empty
arena observes the same `as_integer` in both variants. -/
theorem variant_equivalence_witness :
    ((evalTagged (ScmExpr.cons (ScmExpr.int 1) ScmExpr.nil) []).1.bind
        Scm.as_integer) =
      ((evalSimple (ScmExpr.cons (ScmExpr.int 1) ScmExpr.nil)).bind
        Simple.as_integer) :=
  (variant_equivalence (ScmExpr.cons (ScmExpr.int 1) ScmExpr.nil) []
    (by decide)).2.2.1

/-- Counterexample to C4 as stated: on the one-operation program
`as_integer(from_int(-1))` the two variants disagree — the baseline yields
`some (-1)`, the tagged encoding `some (2^62 - 1)`. -/
theorem variant_equivalence_counterexample :
    ((evalTagged (ScmExpr.int (-1)) []).1.bind Scm.as_integer) ≠
      ((evalSimple (ScmExpr.int (-1))).bind Simple.as_integer) := by decide
